import Mathlib

/-!
Verification of the daily nearest-station assignment pipeline
(src/code/python/assign_nearest_station_dynamic_200706_201108.py).

Shallow embedding conventions:
- calendar dates are integers (days since an arbitrary epoch); one calendar
  day is the integer 1, so pd.Timedelta(days=1) is modelled by 1;
- planar UTM-K coordinates are integers (meters); Euclidean distances are
  carried as squared distances, and the straight-line distance of np.hypot
  is Real.sqrt of the squared distance (np.hypot is strictly monotone in the
  squared distance, so argmin over the two agrees);
- the sunshine measurement column is Option Int: none models the NaN produced
  by pd.to_numeric with errors="coerce" on a missing or unparseable value;
- per-day distances fed to make_intervals are rationals, so the arithmetic
  mean computed by np.nanmean (the distance column never holds NaN) is exact;
- pandas sort_values over several columns uses np.lexsort, a stable sort,
  modelled by List.mergeSort on a boolean lexicographic key;
- pandas drop_duplicates with keep="first" retains the first row of each key
  in order, modelled by dropDupKeep1 with an accumulator of seen keys.
-/

namespace SunAssign

/-- Minimum of f over a list (junk value 0 on the empty list; every use site
guards on nonemptiness, as the source only calls argmin on nonempty arrays). -/
def listMin {α : Type} (f : α → Int) : List α → Int
  | [] => 0
  | [a] => f a
  | a :: b :: l => min (f a) (listMin f (b :: l))

/-- Index of the first occurrence of the minimum of f over a list:
the semantics of np.argmin, which scans left to right and only replaces the
running best on a strictly smaller value. -/
def argminIdx {α : Type} (f : α → Int) : List α → Nat
  | [] => 0
  | [_] => 0
  | a :: b :: l => if f a ≤ listMin f (b :: l) then 0 else argminIdx f (b :: l) + 1

/-- Keep the first row of each key in order, dropping later rows whose key was
already seen: the semantics of pandas drop_duplicates with keep="first". -/
def dropDupKeep1 {α κ : Type} [DecidableEq κ] (key : α → κ) (seen : List κ) : List α → List α
  | [] => []
  | x :: xs =>
    if key x ∈ seen then dropDupKeep1 key seen xs
    else x :: dropDupKeep1 key (key x :: seen) xs

/-- Split a list into maximal runs of adjacent elements related by eq: the
semantics of the change-flag computation in make_intervals, where
change[i] = (st[i] != st[i-1]) and a run spans the indices between two
consecutive change points. -/
def runsBy {α : Type} (eq : α → α → Bool) : List α → List (List α)
  | [] => []
  | [a] => [[a]]
  | a :: b :: l =>
    match runsBy eq (b :: l) with
    | [] => [[a]]
    | r :: rs => if eq a b then (a :: r) :: rs else [a] :: r :: rs

/-- Boolean lexicographic comparison on integer triples, the sort key used by
pandas sort_values over three columns (a descending column is encoded by
negating its key at the call site). -/
def lex3 (x y : Int × Int × Int) : Bool :=
  x.1 < y.1 || (x.1 = y.1 && (x.2.1 < y.2.1 || (x.2.1 = y.2.1 && x.2.2 ≤ y.2.2)))

/-- Raw station metadata row after the pd.to_numeric / pd.to_datetime parses
with errors="coerce": none models a NaN or NaT. Latitude and longitude
(위도/경도) are planar-modelled integers, none when unparseable. -/
structure MetaRow where
  stn : Option Int
  startDate : Option Int
  endDate : Option Int
  lat : Option Int
  lon : Option Int
deriving DecidableEq, Repr

/-- Resolved station validity segment (one row of the prepared META table). -/
structure Seg where
  stn : Int
  segStart : Int
  segEnd : Int
  lat : Int
  lon : Int
deriving DecidableEq, Repr

/-- Sort key of meta.sort_values(["지점", "seg_start", "seg_end"]). -/
def segSortLe (a b : Seg) : Bool :=
  lex3 (a.stn, a.segStart, a.segEnd) (b.stn, b.segStart, b.segEnd)

/-- Rows of prepare_meta before the sort: drop rows with unparseable 지점,
fill missing 시작일/종료일 with the window bounds, keep only segments that
overlap the window, clip to the window, drop rows with unparseable
위도/경도. -/
def metaClean (rows : List MetaRow) (wStart wEnd : Int) : List Seg :=
  (rows.filterMap (fun r =>
      match r.stn, r.lat, r.lon with
      | some s, some la, some lo =>
        some (Seg.mk s (r.startDate.getD wStart) (r.endDate.getD wEnd) la lo)
      | _, _, _ => none)).filterMap (fun g =>
    if wStart ≤ g.segEnd ∧ g.segStart ≤ wEnd then
      some { g with segStart := max g.segStart wStart, segEnd := min g.segEnd wEnd }
    else none)

/-- The sorted META table, right before overlap resolution. -/
def metaSorted (rows : List MetaRow) (wStart wEnd : Int) : List Seg :=
  (metaClean rows wStart wEnd).mergeSort segSortLe

/-- Overlap resolution on the sorted segment list: each row is compared with
the next row of the same station (groupby("지점")["seg_start"].shift(-1));
when seg_end is at or past the next seg_start, seg_end is replaced by the
next seg_start minus one day. The comparison uses the original next row, as
in the vectorized pandas assignment. -/
def resolveOverlaps : List Seg → List Seg
  | [] => []
  | [r] => [r]
  | r :: s :: l =>
    (if r.stn = s.stn ∧ s.segStart ≤ r.segEnd then { r with segEnd := s.segStart - 1 } else r)
      :: resolveOverlaps (s :: l)

/-- prepare_meta: parse, clip to the window, sort, and resolve overlaps. -/
def prepareMeta (rows : List MetaRow) (wStart wEnd : Int) : List Seg :=
  resolveOverlaps (metaSorted rows wStart wEnd)

/-- One sunshine observation row after parsing and window filtering: station
id (지점), date (일시), and the possibly-absent measurement 합계 일조시간(hr). -/
structure Obs where
  stn : Int
  date : Int
  sunHr : Option Int
deriving DecidableEq, Repr

/-- One row of the merged sun x META table kept by attach_segment_to_sun. -/
structure ARow where
  stn : Int
  date : Int
  sunHr : Option Int
  segStart : Int
  segEnd : Int
  lat : Int
  lon : Int
deriving DecidableEq, Repr

/-- Sort key of sort_values(["지점", "일시", "seg_start"], ascending
[True, True, False]): the descending seg_start column is negated. -/
def attachLe (a b : ARow) : Bool :=
  lex3 (a.stn, a.date, -a.segStart) (b.stn, b.date, -b.segStart)

/-- First half of attach_segment_to_sun: merge sun with META on 지점 (the
left-join rows without a META partner carry NaT segment bounds, so the in_seg
filter drops them, which an inner join models) and keep the rows whose date
lies inside the attached segment. -/
def attachPre (sun : List Obs) (meta : List Seg) : List ARow :=
  (sun.flatMap (fun o =>
      (meta.filter (fun s => s.stn == o.stn)).map (fun s =>
        ARow.mk o.stn o.date o.sunHr s.segStart s.segEnd s.lat s.lon))).filter
    (fun m => m.segStart ≤ m.date && m.date ≤ m.segEnd)

/-- attach_segment_to_sun: merge and filter to in-segment rows, stable-sort
by (지점, 일시, seg_start descending) and keep the first row per (지점, 일시),
so the kept row of each station-day has the latest seg_start. -/
def attachSegToSun (sun : List Obs) (meta : List Seg) : List ARow :=
  dropDupKeep1 (fun m => (m.stn, m.date)) []
    ((attachPre sun meta).mergeSort attachLe)

/-- One region row of the centers table: code and the two reference points. -/
structure Region where
  code : Int
  cx : Int
  cy : Int
  rx : Int
  ry : Int
deriving DecidableEq, Repr

/-- One candidate station-day point of sun_seg after reprojection: station id,
date, possibly-absent sunshine measurement, planar UTM-K coordinates. -/
structure Cand where
  stn : Int
  date : Int
  sunHr : Option Int
  x : Int
  y : Int
deriving DecidableEq, Repr

/-- One row of the region_day table, carrying both reference-point policies
(centroid and representative point) of one region on one day. -/
structure RDRow where
  code : Int
  date : Int
  stC : Int
  distSqC : Int
  sunC : Option Int
  stR : Int
  distSqR : Int
  sunR : Option Int
deriving DecidableEq, Repr

/-- Squared Euclidean distance between two planar points. -/
def distSq (px py qx qy : Int) : Int := (px - qx) ^ 2 + (py - qy) ^ 2

/-- Junk candidate used as the getD default; every access is guarded by an
index bound, as the source only indexes nonempty candidate arrays. -/
def dummyCand : Cand := Cand.mk 0 0 none 0 0

/-- nearest_station_for_day restricted to one region reference point: the
index of the (first) minimum-distance candidate, paired with the distance
value read back at that index, as squared distances. -/
def nearestStationForDay (px py : Int) (g : List Cand) : Nat × Int :=
  (argminIdx (fun c => distSq px py c.x c.y) g,
   distSq px py (g.getD (argminIdx (fun c => distSq px py c.x c.y) g) dummyCand).x
     (g.getD (argminIdx (fun c => distSq px py c.x c.y) g) dummyCand).y)

/-- The region_day row built for one region on one day from that day's
candidate group g. -/
def mkRDRow (r : Region) (d : Int) (g : List Cand) : RDRow :=
  RDRow.mk r.code d
    (g.getD (nearestStationForDay r.cx r.cy g).1 dummyCand).stn
    (nearestStationForDay r.cx r.cy g).2
    (g.getD (nearestStationForDay r.cx r.cy g).1 dummyCand).sunHr
    (g.getD (nearestStationForDay r.rx r.ry g).1 dummyCand).stn
    (nearestStationForDay r.rx r.ry g).2
    (g.getD (nearestStationForDay r.rx r.ry g).1 dummyCand).sunHr

/-- The day keys of groupby over the normalized date: the distinct dates of
the pool, in ascending order (pandas groupby sorts its keys). A day with no
candidate row is not a key, so the main loop emits nothing for it. -/
def poolDays (pool : List Cand) : List Int :=
  (dropDupKeep1 (fun d => d) [] (pool.map (fun c => c.date))).mergeSort
    (fun a b => a ≤ b)

/-- The main nearest-station loop: one row per (day of the pool) per region,
each row carrying both policies. -/
def buildRegionDay (centers : List Region) (pool : List Cand) : List RDRow :=
  (poolDays pool).flatMap (fun d =>
    centers.map (fun r => mkRDRow r d (pool.filter (fun c => c.date == d))))

/-- One input record of make_intervals for one region, in date order: the
assigned station id column (Option Int: pd.isna-checked), the per-day
distance column, and the date column. -/
structure IRec where
  st : Option Int
  dist : ℚ
  date : Int
deriving DecidableEq, Repr

/-- One emitted assignment interval. -/
structure Interval where
  stationId : Int
  startDate : Int
  endDate : Int
  meanDist : ℚ
  nDays : Nat
deriving DecidableEq, Repr

/-- Adjacency test of the change-flag computation st[1:] != st[:-1] under
NumPy NaN semantics: NaN compares unequal to everything, NaN included, so
two records belong to the same run only when both station ids are present
and equal. -/
def stEq (a b : IRec) : Bool :=
  match a.st, b.st with
  | some x, some y => x == y
  | _, _ => false

/-- Interval emitted for one maximal run: skipped when the run's station id
is absent (pd.isna(st_id)); otherwise start/end dates are the run's first and
last dates, mean distance is np.nanmean over the run's distance slice (the
distance column never holds NaN, so this is the arithmetic mean), and n_days
is e - s + 1, the number of records in the run. -/
def runToInterval : List IRec → Option Interval
  | [] => none
  | r :: l =>
    match r.st with
    | none => none
    | some sid =>
      some (Interval.mk sid r.date ((r :: l).getLast (by simp)).date
        (((r :: l).map (fun q => q.dist)).sum / ((r :: l).length : ℚ))
        (r :: l).length)

/-- make_intervals for one region's date-ordered record slice: split the
station-id sequence at its change points and emit one interval per run. -/
def makeIntervalsRegion (recs : List IRec) : List Interval :=
  (runsBy stEq recs).filterMap runToInterval

/-- One row of the monthly aggregate table for one (region, year-month). -/
structure MRow where
  code : Int
  ym : Int
  sumC : Int
  sumR : Int
  nDays : Nat
deriving DecidableEq, Repr

/-- Monthly aggregation of region_day: group by (region code, year-month) and
take the pandas sum of each policy's sunshine column, which skips NaN values,
and the pandas count of the date column, which counts every row of the group
(dates are never NaN). The year-month key dt.to_period("M") is modelled as an
uninterpreted pure function ym on dates. -/
def monthlyAgg (ym : Int → Int) (rows : List RDRow) : List MRow :=
  (dropDupKeep1 (fun k => k) [] (rows.map (fun r => (r.code, ym r.date)))).map
    (fun k =>
      MRow.mk k.1 k.2
        (((rows.filter (fun r => r.code == k.1 && ym r.date == k.2)).filterMap
            (fun r => r.sunC)).sum)
        (((rows.filter (fun r => r.code == k.1 && ym r.date == k.2)).filterMap
            (fun r => r.sunR)).sum)
        ((rows.filter (fun r => r.code == k.1 && ym r.date == k.2)).length))

/-- The required columns of the region centers table. -/
def centersNeed : List String :=
  ["SIGUNGU_CD", "resid_area", "centroid_x_utmK", "centroid_y_utmK",
   "rep_x_utmK", "rep_y_utmK"]

/-- The required sunshine measurement column. -/
def sunColName : String := "합계 일조시간(hr)"

/-- The fatal errors raised by main before any assignment computation. -/
inductive LoadError
  | centersMissing (cols : List String)
  | sunEmpty
  | sunColMissing
deriving DecidableEq, Repr

/-- Schema validation of the centers table: need - set(columns), reported
sorted, fatal when nonempty. -/
def checkCenters (cols : List String) : Except LoadError Unit :=
  match (centersNeed.filter (fun c => !cols.contains c)).mergeSort
      (fun a b => a ≤ b) with
  | [] => Except.ok ()
  | c :: l => Except.error (LoadError.centersMissing (c :: l))

/-- The load-and-validate phase of main followed by the assignment loop:
centers schema check, window filter of the sunshine rows, empty check,
measurement column check, META preparation on the min/max observed date,
segment attachment, reprojection (a pure black box), and the daily
nearest-station loop. An error short-circuits before any region-day row is
computed. -/
def mainModel (wStart wEnd : Int) (centersCols : List String)
    (centers : List Region) (sunCols : List String) (sun : List Obs)
    (metaRows : List MetaRow) (reproject : Int → Int → Int × Int) :
    Except LoadError (List RDRow) :=
  match checkCenters centersCols with
  | Except.error e => Except.error e
  | Except.ok _ =>
    match sun.filter (fun o => wStart ≤ o.date && o.date ≤ wEnd) with
    | [] => Except.error LoadError.sunEmpty
    | o0 :: rest =>
      if sunColName ∈ sunCols then
        Except.ok (buildRegionDay centers
          ((attachSegToSun (o0 :: rest)
              (prepareMeta metaRows (listMin (fun o => o.date) (o0 :: rest))
                (-listMin (fun o => -o.date) (o0 :: rest)))).map (fun a =>
            Cand.mk a.stn a.date a.sunHr (reproject a.lon a.lat).1
              (reproject a.lon a.lat).2)))
      else Except.error LoadError.sunColMissing

/-- Euclidean straight-line distance (np.hypot) from a region reference point
to a candidate station, as a real number. -/
noncomputable def edist (px py : Int) (c : Cand) : ℝ :=
  Real.sqrt ((distSq px py c.x c.y : Int) : ℝ)

/-- Concrete region used by refutation instances: both reference points at
the origin. -/
def regC1 : Region := Region.mk 10 0 0 0 0

/-- Concrete one-day candidate pool: station 1 at distance 1 with an absent
measurement, station 2 at distance 10 with a present measurement. -/
def poolC1 : List Cand := [Cand.mk 1 5 none 0 1, Cand.mk 2 5 (some 7) 0 10]

/-- Concrete sunshine table: one observation of station 1 on day 10. -/
def sunW5 : List Obs := [Obs.mk 1 10 (some 2)]

/-- Concrete META: two overlapping segments of station 1 both containing day
10, the later-starting one first so the merged list is already sorted. -/
def metaW5 : List Seg := [Seg.mk 1 5 30 6 7, Seg.mk 1 0 20 3 4]

/-- The attached row kept for (station 1, day 10): the segment with the
latest seg_start. -/
def arowW5 : ARow := ARow.mk 1 10 (some 2) 5 30 6 7

/-- The attached row dropped for (station 1, day 10). -/
def arowW5b : ARow := ARow.mk 1 10 (some 2) 0 20 3 4

/-- Junk segment used as the getD default in indexed statements. -/
def dummySeg : Seg := Seg.mk 0 0 0 0 0

/-- Concrete metadata: one station with two segments whose start dates are
both missing, so both seg_start values are filled with the window start. -/
def exMetaC3 : List MetaRow :=
  [MetaRow.mk (some 1) none (some 50) (some 0) (some 0),
   MetaRow.mk (some 1) none (some 80) (some 0) (some 0)]

/-- Concrete interval-compressor input with one station run over dates 0 and
2 and no record on day 1: two records, calendar span three days. -/
def recsGap : List IRec := [IRec.mk (some 7) 0 0, IRec.mk (some 7) 0 2]

/-- Concrete single-record interval-compressor input. -/
def recsW : List IRec := [IRec.mk (some 3) 5 10]

/-- The single interval emitted for recsW. -/
def ivW : Interval :=
  Interval.mk 3 10 10 ((recsW.map (fun q => q.dist)).sum / (recsW.length : ℚ)) 1

lemma listMin_le {α : Type} (f : α → Int) : ∀ (l : List α), ∀ c ∈ l, listMin f l ≤ f c
  | [a], c, hc => by
    rcases List.mem_singleton.mp hc with rfl
    simp [listMin]
  | a :: b :: l, c, hc => by
    rcases List.mem_cons.mp hc with rfl | hc
    · simp [listMin]
    · have := listMin_le f (b :: l) c hc
      simp only [listMin]
      exact le_trans (min_le_right _ _) this

lemma argminIdx_lt_length {α : Type} (f : α → Int) :
    ∀ (l : List α), l ≠ [] → argminIdx f l < l.length
  | [a], _ => by simp [argminIdx]
  | a :: b :: l, _ => by
    by_cases h : f a ≤ listMin f (b :: l)
    · simp [argminIdx, h]
    · have ih := argminIdx_lt_length f (b :: l) (by simp)
      simp only [List.length_cons] at ih ⊢
      simp only [argminIdx, if_neg h]
      omega

lemma argminIdx_getD {α : Type} (f : α → Int) (d : α) :
    ∀ (l : List α), l ≠ [] → f (l.getD (argminIdx f l) d) = listMin f l
  | [a], _ => by simp [argminIdx, listMin]
  | a :: b :: l, _ => by
    by_cases h : f a ≤ listMin f (b :: l)
    · simp only [argminIdx, if_pos h, List.getD_cons_zero, listMin]
      omega
    · have := argminIdx_getD f d (b :: l) (by simp)
      simp only [argminIdx, if_neg h, List.getD_cons_succ, listMin]
      omega

lemma argminIdx_first {α : Type} (f : α → Int) (d : α) :
    ∀ (l : List α), ∀ j < argminIdx f l, listMin f l < f (l.getD j d)
  | [], j, hj => by simp [argminIdx] at hj
  | [a], j, hj => by simp [argminIdx] at hj
  | a :: b :: l, j, hj => by
    by_cases h : f a ≤ listMin f (b :: l)
    · simp [argminIdx, h] at hj
    · simp only [argminIdx, if_neg h] at hj
      match j with
      | 0 =>
        simp only [List.getD_cons_zero, listMin]
        omega
      | j + 1 =>
        have := argminIdx_first f d (b :: l) j (by omega)
        simp only [List.getD_cons_succ, listMin]
        omega

lemma dropDupKeep1_sublist {α κ : Type} [DecidableEq κ] (key : α → κ) :
    ∀ (seen : List κ) (l : List α), (dropDupKeep1 key seen l).Sublist l
  | _, [] => by simp [dropDupKeep1]
  | seen, x :: xs => by
    by_cases h : key x ∈ seen
    · simp only [dropDupKeep1, if_pos h]
      exact (dropDupKeep1_sublist key seen xs).cons x
    · simp only [dropDupKeep1, if_neg h]
      exact (dropDupKeep1_sublist key (key x :: seen) xs).cons₂ x

lemma dropDupKeep1_key_not_seen {α κ : Type} [DecidableEq κ] (key : α → κ) :
    ∀ (seen : List κ) (l : List α) (x : α), x ∈ dropDupKeep1 key seen l → key x ∉ seen
  | seen, [], x, hx => by simp [dropDupKeep1] at hx
  | seen, a :: as, x, hx => by
    by_cases h : key a ∈ seen
    · simp only [dropDupKeep1, if_pos h] at hx
      exact dropDupKeep1_key_not_seen key seen as x hx
    · simp only [dropDupKeep1, if_neg h] at hx
      rcases List.mem_cons.mp hx with rfl | hx
      · exact h
      · have := dropDupKeep1_key_not_seen key (key a :: seen) as x hx
        intro hmem
        exact this (List.mem_cons_of_mem _ hmem)

lemma dropDupKeep1_keys_nodup {α κ : Type} [DecidableEq κ] (key : α → κ) :
    ∀ (seen : List κ) (l : List α),
      (dropDupKeep1 key seen l).Pairwise (fun a b => key a ≠ key b)
  | seen, [] => by simp [dropDupKeep1]
  | seen, a :: as => by
    by_cases h : key a ∈ seen
    · simp only [dropDupKeep1, if_pos h]
      exact dropDupKeep1_keys_nodup key seen as
    · simp only [dropDupKeep1, if_neg h]
      refine List.Pairwise.cons ?_ (dropDupKeep1_keys_nodup key (key a :: seen) as)
      intro b hb
      have := dropDupKeep1_key_not_seen key (key a :: seen) as b hb
      intro hk
      exact this (by simp [hk])

lemma dropDupKeep1_keys_covered {α κ : Type} [DecidableEq κ] (key : α → κ) :
    ∀ (seen : List κ) (l : List α) (k : κ), k ∉ seen →
      ((∃ x ∈ dropDupKeep1 key seen l, key x = k) ↔ ∃ y ∈ l, key y = k)
  | seen, [], k, hk => by simp [dropDupKeep1]
  | seen, a :: as, k, hk => by
    by_cases h : key a ∈ seen
    · simp only [dropDupKeep1, if_pos h]
      rw [dropDupKeep1_keys_covered key seen as k hk]
      constructor
      · rintro ⟨y, hy, rfl⟩
        exact ⟨y, List.mem_cons_of_mem _ hy, rfl⟩
      · rintro ⟨y, hy, rfl⟩
        rcases List.mem_cons.mp hy with rfl | hy
        · exact absurd h (by rintro h'; exact hk h')
        · exact ⟨y, hy, rfl⟩
    · simp only [dropDupKeep1, if_neg h]
      by_cases hak : key a = k
      · constructor
        · rintro -
          exact ⟨a, List.mem_cons_self a as, hak⟩
        · rintro -
          exact ⟨a, List.mem_cons_self _ _, hak⟩
      · have hk' : k ∉ key a :: seen := by
          intro hmem
          rcases List.mem_cons.mp hmem with rfl | hmem
          · exact hak rfl
          · exact hk hmem
        rw [show (∃ x ∈ a :: dropDupKeep1 key (key a :: seen) as, key x = k) ↔
              (∃ x ∈ dropDupKeep1 key (key a :: seen) as, key x = k) from ?_]
        · rw [dropDupKeep1_keys_covered key (key a :: seen) as k hk']
          constructor
          · rintro ⟨y, hy, rfl⟩
            exact ⟨y, List.mem_cons_of_mem _ hy, rfl⟩
          · rintro ⟨y, hy, rfl⟩
            rcases List.mem_cons.mp hy with rfl | hy
            · exact absurd rfl hak
            · exact ⟨y, hy, rfl⟩
        · constructor
          · rintro ⟨x, hx, rfl⟩
            rcases List.mem_cons.mp hx with rfl | hx
            · exact absurd rfl hak
            · exact ⟨x, hx, rfl⟩
          · rintro ⟨x, hx, rfl⟩
            exact ⟨x, List.mem_cons_of_mem _ hx, rfl⟩

lemma dropDupKeep1_max_of_pairwise {α κ : Type} [DecidableEq κ] (key : α → κ)
    (f : α → Int) :
    ∀ (seen : List κ) (l : List α),
      l.Pairwise (fun a b => key a = key b → f b ≤ f a) →
      ∀ x ∈ dropDupKeep1 key seen l, ∀ y ∈ l, key y = key x → f y ≤ f x
  | seen, [], _, x, hx => by simp [dropDupKeep1] at hx
  | seen, a :: as, hpw, x, hx => by
    rcases List.pairwise_cons.mp hpw with ⟨ha, htail⟩
    by_cases h : key a ∈ seen
    · simp only [dropDupKeep1, if_pos h] at hx
      intro y hy hky
      have hxk := dropDupKeep1_key_not_seen key seen as x hx
      rcases List.mem_cons.mp hy with rfl | hy
      · exact absurd (hky ▸ h) hxk
      · exact dropDupKeep1_max_of_pairwise key f seen as htail x hx y hy hky
    · simp only [dropDupKeep1, if_neg h] at hx
      rcases List.mem_cons.mp hx with rfl | hx
      · intro y hy hky
        rcases List.mem_cons.mp hy with rfl | hy
        · exact le_refl _
        · exact ha y hy hky.symm
      · intro y hy hky
        have hxk := dropDupKeep1_key_not_seen key (key a :: seen) as x hx
        rcases List.mem_cons.mp hy with rfl | hy
        · exact absurd (by simp [hky]) hxk
        · exact dropDupKeep1_max_of_pairwise key f (key a :: seen) as htail x hx y hy hky

lemma runsBy_cons_cons {α : Type} (eq : α → α → Bool) (b : α) (l : List α) :
    ∃ t rs, runsBy eq (b :: l) = (b :: t) :: rs := by
  induction l generalizing b with
  | nil => exact ⟨[], [], rfl⟩
  | cons c l ih =>
    rcases ih c with ⟨t, rs, h⟩
    by_cases hbc : eq b c
    · exact ⟨c :: t, rs, by simp [runsBy, h, hbc]⟩
    · exact ⟨[], (c :: t) :: rs, by simp [runsBy, h, hbc]⟩

lemma runsBy_flatten {α : Type} (eq : α → α → Bool) :
    ∀ (l : List α), (runsBy eq l).flatten = l
  | [] => rfl
  | [a] => rfl
  | a :: b :: l => by
    have ih := runsBy_flatten eq (b :: l)
    rcases runsBy_cons_cons eq b l with ⟨t, rs, h⟩
    rw [h] at ih
    by_cases hab : eq a b
    · simp only [runsBy, h, if_pos hab, List.flatten_cons]
      simp only [List.flatten_cons] at ih
      simp [ih]
    · simp only [runsBy, h, if_neg hab, List.flatten_cons]
      simp only [List.flatten_cons] at ih
      simp [ih]

lemma runsBy_ne_nil {α : Type} (eq : α → α → Bool) :
    ∀ (l : List α), ∀ r ∈ runsBy eq l, r ≠ []
  | [a], r, hr => by
    simp only [runsBy, List.mem_singleton] at hr
    simp [hr]
  | a :: b :: l, r, hr => by
    have ih := runsBy_ne_nil eq (b :: l)
    rcases runsBy_cons_cons eq b l with ⟨t, rs, h⟩
    by_cases hab : eq a b
    · simp only [runsBy, h, if_pos hab] at hr
      rcases List.mem_cons.mp hr with rfl | hr
      · simp
      · exact ih r (by rw [h]; exact List.mem_cons_of_mem _ hr)
    · simp only [runsBy, h, if_neg hab] at hr
      rcases List.mem_cons.mp hr with rfl | hr
      · simp
      · exact ih r (by rw [h]; exact hr)

lemma runsBy_chain {α : Type} (eq : α → α → Bool) :
    ∀ (l : List α), ∀ r ∈ runsBy eq l, r.Chain' (fun x y => eq x y = true)
  | [a], r, hr => by
    simp only [runsBy, List.mem_singleton] at hr
    simp [hr]
  | a :: b :: l, r, hr => by
    have ih := runsBy_chain eq (b :: l)
    rcases runsBy_cons_cons eq b l with ⟨t, rs, h⟩
    by_cases hab : eq a b
    · simp only [runsBy, h, if_pos hab] at hr
      rcases List.mem_cons.mp hr with rfl | hr
      · have hbt : (b :: t).Chain' (fun x y => eq x y = true) :=
          ih (b :: t) (by rw [h]; exact List.mem_cons_self _ _)
        exact List.Chain'.cons hab hbt
      · exact ih r (by rw [h]; exact List.mem_cons_of_mem _ hr)
    · simp only [runsBy, h, if_neg hab] at hr
      rcases List.mem_cons.mp hr with rfl | hr
      · simp
      · exact ih r (by rw [h]; exact hr)

lemma lex3_trans (x y z : Int × Int × Int) :
    lex3 x y = true → lex3 y z = true → lex3 x z = true := by
  simp only [lex3, Bool.or_eq_true, Bool.and_eq_true, decide_eq_true_eq]
  omega

lemma lex3_total (x y : Int × Int × Int) : (lex3 x y || lex3 y x) = true := by
  simp only [lex3, Bool.or_eq_true, Bool.and_eq_true, decide_eq_true_eq]
  omega

lemma distSq_nonneg (px py qx qy : Int) : 0 ≤ distSq px py qx qy := by
  have h1 : 0 ≤ (px - qx) ^ 2 := sq_nonneg _
  have h2 : 0 ≤ (py - qy) ^ 2 := sq_nonneg _
  simp only [distSq]
  omega

lemma sqrt_intCast_le_iff (a b : Int) (hb : 0 ≤ b) :
    Real.sqrt (a : ℝ) ≤ Real.sqrt (b : ℝ) ↔ a ≤ b := by
  rw [Real.sqrt_le_sqrt_iff (by exact_mod_cast hb)]
  exact_mod_cast Iff.rfl

lemma sqrt_intCast_lt_iff (a b : Int) (ha : 0 ≤ a) :
    Real.sqrt (a : ℝ) < Real.sqrt (b : ℝ) ↔ a < b := by
  constructor
  · intro h
    by_contra hba
    push_neg at hba
    exact absurd ((sqrt_intCast_le_iff b a ha).mpr hba) (not_le.mpr h)
  · intro h
    have hb : 0 ≤ b := le_of_lt (lt_of_le_of_lt ha h)
    rcases lt_or_eq_of_le ((sqrt_intCast_le_iff a b hb).mpr (le_of_lt h)) with h' | h'
    · exact h'
    · have := Real.sqrt_inj (by exact_mod_cast ha) (by exact_mod_cast hb) |>.mp h'
      have : a = b := by exact_mod_cast this
      omega

lemma edist_le_edist_iff (px py : Int) (c c' : Cand) :
    edist px py c ≤ edist px py c' ↔
      distSq px py c.x c.y ≤ distSq px py c'.x c'.y := by
  exact sqrt_intCast_le_iff _ _ (distSq_nonneg _ _ _ _)

lemma edist_lt_edist_iff (px py : Int) (c c' : Cand) :
    edist px py c < edist px py c' ↔
      distSq px py c.x c.y < distSq px py c'.x c'.y := by
  exact sqrt_intCast_lt_iff _ _ (distSq_nonneg _ _ _ _)

/-- C4: for one day's candidate pool, nearest_station_for_day returns for a
region reference point an in-range index of a candidate achieving the minimum
Euclidean (straight-line) distance, the returned distance equals that
minimum, and on exact distance ties the first candidate in enumeration order
is chosen (every strictly earlier candidate is strictly farther). -/
theorem nearest_station_min_euclidean (px py : Int) (g : List Cand)
    (hne : g ≠ []) :
    (nearestStationForDay px py g).1 < g.length ∧
    (∀ c ∈ g,
      edist px py (g.getD (nearestStationForDay px py g).1 dummyCand) ≤ edist px py c) ∧
    Real.sqrt (((nearestStationForDay px py g).2 : Int) : ℝ) =
      edist px py (g.getD (nearestStationForDay px py g).1 dummyCand) ∧
    (∀ j < (nearestStationForDay px py g).1,
      edist px py (g.getD (nearestStationForDay px py g).1 dummyCand) <
        edist px py (g.getD j dummyCand)) := by
  have hlt := argminIdx_lt_length (fun c => distSq px py c.x c.y) g hne
  have hmin : distSq px py
      (g.getD (argminIdx (fun c => distSq px py c.x c.y) g) dummyCand).x
      (g.getD (argminIdx (fun c => distSq px py c.x c.y) g) dummyCand).y =
      listMin (fun c => distSq px py c.x c.y) g :=
    argminIdx_getD (fun c => distSq px py c.x c.y) dummyCand g hne
  refine ⟨hlt, ?_, rfl, ?_⟩
  · intro c hc
    rw [edist_le_edist_iff]
    simp only [nearestStationForDay]
    rw [hmin]
    exact listMin_le _ g c hc
  · intro j hj
    rw [edist_lt_edist_iff]
    simp only [nearestStationForDay] at hj ⊢
    rw [hmin]
    exact argminIdx_first _ dummyCand g j hj

/-- Witness for C4 at a concrete two-candidate pool. -/
theorem nearest_station_min_euclidean_witness :
    ([Cand.mk 1 0 none 0 3, Cand.mk 2 0 none 4 0] ≠ []) ∧
    ((nearestStationForDay 0 0 [Cand.mk 1 0 none 0 3, Cand.mk 2 0 none 4 0]).1 <
        ([Cand.mk 1 0 none 0 3, Cand.mk 2 0 none 4 0] : List Cand).length ∧
      (∀ c ∈ [Cand.mk 1 0 none 0 3, Cand.mk 2 0 none 4 0],
        edist 0 0 (([Cand.mk 1 0 none 0 3, Cand.mk 2 0 none 4 0] : List Cand).getD
          (nearestStationForDay 0 0 [Cand.mk 1 0 none 0 3, Cand.mk 2 0 none 4 0]).1
          dummyCand) ≤ edist 0 0 c) ∧
      Real.sqrt
          (((nearestStationForDay 0 0
            [Cand.mk 1 0 none 0 3, Cand.mk 2 0 none 4 0]).2 : Int) : ℝ) =
        edist 0 0 (([Cand.mk 1 0 none 0 3, Cand.mk 2 0 none 4 0] : List Cand).getD
          (nearestStationForDay 0 0 [Cand.mk 1 0 none 0 3, Cand.mk 2 0 none 4 0]).1
          dummyCand) ∧
      (∀ j < (nearestStationForDay 0 0 [Cand.mk 1 0 none 0 3, Cand.mk 2 0 none 4 0]).1,
        edist 0 0 (([Cand.mk 1 0 none 0 3, Cand.mk 2 0 none 4 0] : List Cand).getD
          (nearestStationForDay 0 0 [Cand.mk 1 0 none 0 3, Cand.mk 2 0 none 4 0]).1
          dummyCand) <
          edist 0 0 (([Cand.mk 1 0 none 0 3, Cand.mk 2 0 none 4 0] : List Cand).getD j
            dummyCand))) :=
  ⟨by decide, nearest_station_min_euclidean 0 0
    [Cand.mk 1 0 none 0 3, Cand.mk 2 0 none 4 0] (by decide)⟩

lemma nearest_getD_mem (px py : Int) (g : List Cand) (hne : g ≠ []) :
    g.getD (nearestStationForDay px py g).1 dummyCand ∈ g := by
  have hlt := argminIdx_lt_length (fun c => distSq px py c.x c.y) g hne
  simp only [nearestStationForDay]
  rw [List.getD_eq_getElem g dummyCand hlt]
  exact List.getElem_mem hlt

lemma nearest_getD_min (px py : Int) (g : List Cand) (hne : g ≠ []) :
    ∀ c ∈ g,
      edist px py (g.getD (nearestStationForDay px py g).1 dummyCand) ≤ edist px py c := by
  have hmin : distSq px py
      (g.getD (argminIdx (fun c => distSq px py c.x c.y) g) dummyCand).x
      (g.getD (argminIdx (fun c => distSq px py c.x c.y) g) dummyCand).y =
      listMin (fun c => distSq px py c.x c.y) g :=
    argminIdx_getD (fun c => distSq px py c.x c.y) dummyCand g hne
  intro c hc
  rw [edist_le_edist_iff]
  simp only [nearestStationForDay]
  rw [hmin]
  exact listMin_le _ g c hc

lemma mem_poolDays (pool : List Cand) (d : Int) :
    d ∈ poolDays pool ↔ ∃ c ∈ pool, c.date = d := by
  simp only [poolDays]
  rw [List.Perm.mem_iff (List.mergeSort_perm _ _)]
  constructor
  · intro hd
    have hcov := dropDupKeep1_keys_covered (fun x => x) []
      (pool.map (fun c => c.date)) d (by simp)
    rcases hcov.mp ⟨d, hd, rfl⟩ with ⟨y, hy, rfl⟩
    rcases List.mem_map.mp hy with ⟨c, hc, rfl⟩
    exact ⟨c, hc, rfl⟩
  · rintro ⟨c, hc, rfl⟩
    have hcov := dropDupKeep1_keys_covered (fun x => x) []
      (pool.map (fun q => q.date)) c.date (by simp)
    rcases hcov.mpr ⟨c.date, List.mem_map.mpr ⟨c, hc, rfl⟩, rfl⟩ with ⟨x, hx, hxd⟩
    simpa [hxd] using hx

/-- C1 counterexample: the main loop never filters the candidate pool to
present-measurement stations. On a day where the truly-nearest station
(station 1, distance 1) has an absent measurement and a farther station
(station 2, distance 10) has a present one, the code still assigns station 1,
with an absent measurement carried into the row; the claim, which demands the
minimum-distance present-measurement candidate (station 2), is false. -/
theorem present_measurement_filter_counterexample :
    ¬ (∀ row ∈ buildRegionDay [regC1] poolC1,
        ∃ c ∈ poolC1.filter (fun q => q.date == row.date && q.sunHr.isSome),
          row.stC = c.stn ∧
          ∀ c' ∈ poolC1.filter (fun q => q.date == row.date && q.sunHr.isSome),
            edist regC1.cx regC1.cy c ≤ edist regC1.cx regC1.cy c') := by
  have h0 : dropDupKeep1 (fun d => d) [] (poolC1.map (fun c => c.date)) = [5] := by
    decide
  have h1 : poolDays poolC1 = [5] := by
    simp only [poolDays]
    rw [h0]
    exact List.mergeSort_singleton 5
  have h2 : buildRegionDay [regC1] poolC1 =
      [mkRDRow regC1 5 (poolC1.filter (fun c => c.date == (5 : Int)))] := by
    simp [buildRegionDay, h1]
  intro h
  have hrow := h (mkRDRow regC1 5 (poolC1.filter (fun c => c.date == (5 : Int))))
    (by rw [h2]; exact List.mem_singleton.mpr rfl)
  rcases hrow with ⟨c, hc, hst, -⟩
  have hfil : poolC1.filter (fun q => q.date ==
      (mkRDRow regC1 5 (poolC1.filter (fun c => c.date == (5 : Int)))).date &&
      q.sunHr.isSome) = [Cand.mk 2 5 (some 7) 0 10] := by decide
  rw [hfil] at hc
  rcases List.mem_singleton.mp hc with rfl
  revert hst
  decide

/-- C1 amended: eligibility requires only a station-day row in the joined
pool for that day (a sunshine record), not a present measurement value; for
every region the assigned station of each policy is the minimum-Euclidean-
distance candidate among all of that day's pool rows, and its possibly-absent
measurement is carried into the assignment row as-is. -/
theorem assigned_station_min_dist_over_all_pool_rows (centers : List Region)
    (pool : List Cand) (r : Region) (d : Int) (hr : r ∈ centers)
    (hne : pool.filter (fun c => c.date == d) ≠ []) :
    ∃ row ∈ buildRegionDay centers pool, row.code = r.code ∧ row.date = d ∧
      (∃ c ∈ pool.filter (fun c => c.date == d),
        row.stC = c.stn ∧ row.sunC = c.sunHr ∧
        ∀ c' ∈ pool.filter (fun c => c.date == d),
          edist r.cx r.cy c ≤ edist r.cx r.cy c') ∧
      (∃ c ∈ pool.filter (fun c => c.date == d),
        row.stR = c.stn ∧ row.sunR = c.sunHr ∧
        ∀ c' ∈ pool.filter (fun c => c.date == d),
          edist r.rx r.ry c ≤ edist r.rx r.ry c') := by
  have hd : d ∈ poolDays pool := by
    rcases List.exists_mem_of_ne_nil _ hne with ⟨c, hc⟩
    rcases List.mem_filter.mp hc with ⟨hcp, hcd⟩
    exact (mem_poolDays pool d).mpr ⟨c, hcp, by simpa using hcd⟩
  refine ⟨mkRDRow r d (pool.filter (fun c => c.date == d)), ?_, rfl, rfl, ?_, ?_⟩
  · exact List.mem_flatMap.mpr ⟨d, hd, List.mem_map.mpr ⟨r, hr, rfl⟩⟩
  · exact ⟨_, nearest_getD_mem r.cx r.cy _ hne, rfl, rfl,
      nearest_getD_min r.cx r.cy _ hne⟩
  · exact ⟨_, nearest_getD_mem r.rx r.ry _ hne, rfl, rfl,
      nearest_getD_min r.rx r.ry _ hne⟩

/-- Witness for the amended C1 at the concrete pool of the counterexample. -/
theorem assigned_station_min_dist_over_all_pool_rows_witness :
    (regC1 ∈ [regC1] ∧ poolC1.filter (fun c => c.date == (5 : Int)) ≠ []) ∧
    (∃ row ∈ buildRegionDay [regC1] poolC1, row.code = regC1.code ∧ row.date = 5 ∧
      (∃ c ∈ poolC1.filter (fun c => c.date == (5 : Int)),
        row.stC = c.stn ∧ row.sunC = c.sunHr ∧
        ∀ c' ∈ poolC1.filter (fun c => c.date == (5 : Int)),
          edist regC1.cx regC1.cy c ≤ edist regC1.cx regC1.cy c') ∧
      (∃ c ∈ poolC1.filter (fun c => c.date == (5 : Int)),
        row.stR = c.stn ∧ row.sunR = c.sunHr ∧
        ∀ c' ∈ poolC1.filter (fun c => c.date == (5 : Int)),
          edist regC1.rx regC1.ry c ≤ edist regC1.rx regC1.ry c')) :=
  ⟨⟨by decide, by decide⟩,
    assigned_station_min_dist_over_all_pool_rows [regC1] poolC1 regC1 5
      (by decide) (by decide)⟩

lemma countP_flatMap {α β : Type} (p : β → Bool) (f : α → List β) :
    ∀ (l : List α),
      List.countP p (l.flatMap f) = (l.map (fun a => List.countP p (f a))).sum
  | [] => rfl
  | a :: l => by
    simp only [List.flatMap_cons, List.countP_append, List.map_cons, List.sum_cons]
    rw [countP_flatMap p f l]

lemma sum_map_single_key (g : Int → Nat) :
    ∀ (ds : List Int) (d : Int), ds.Nodup → d ∈ ds →
      (∀ e ∈ ds, e ≠ d → g e = 0) → (ds.map g).sum = g d
  | [], d, _, hd, _ => by simp at hd
  | a :: t, d, hnd, hd, hz => by
    rcases List.nodup_cons.mp hnd with ⟨hat, hnt⟩
    rcases List.mem_cons.mp hd with rfl | hd
    · have ht : (t.map g).sum = 0 := by
        apply List.sum_eq_zero
        intro x hx
        rcases List.mem_map.mp hx with ⟨e, he, rfl⟩
        exact hz e (List.mem_cons_of_mem _ he) (by rintro rfl; exact hat he)
      simp [ht]
    · have ha : g a = 0 := hz a (List.mem_cons_self _ _) (by rintro rfl; exact hat hd)
      have := sum_map_single_key g t d hnt hd
        (fun e he hne => hz e (List.mem_cons_of_mem _ he) hne)
      simp [ha, this]

lemma poolDays_nodup (pool : List Cand) : (poolDays pool).Nodup := by
  have h1 : (dropDupKeep1 (fun d => d) [] (pool.map (fun c => c.date))).Nodup :=
    List.Pairwise.imp (fun h => h)
      (dropDupKeep1_keys_nodup (fun d => d) [] (pool.map (fun c => c.date)))
  exact (List.mergeSort_perm _ _).symm.nodup h1

/-- C7: a calendar day whose candidate pool is empty yields no region-day
row at all for any region (the day is wholly absent from the output, not
null-filled), while a day with at least one candidate yields exactly one row
per region, each row carrying both policies' assignments. -/
theorem empty_day_absent_nonempty_day_unique (centers : List Region)
    (pool : List Cand) (d : Int) :
    ((∀ c ∈ pool, c.date ≠ d) →
      ∀ row ∈ buildRegionDay centers pool, row.date ≠ d) ∧
    ((centers.map (fun q => q.code)).Nodup → (∃ c ∈ pool, c.date = d) →
      ∀ r ∈ centers,
        (buildRegionDay centers pool).countP
          (fun row => row.date == d && row.code == r.code) = 1) := by
  constructor
  · intro hnone row hrow
    rcases List.mem_flatMap.mp hrow with ⟨e, he, hrow⟩
    rcases List.mem_map.mp hrow with ⟨r, hr, rfl⟩
    rcases (mem_poolDays pool e).mp he with ⟨c, hc, rfl⟩
    exact hnone c hc
  · intro hnodup hsome r hr
    have hd : d ∈ poolDays pool := (mem_poolDays pool d).mpr hsome
    rw [buildRegionDay, countP_flatMap]
    have hz : ∀ e ∈ poolDays pool, e ≠ d →
        List.countP (fun row => row.date == d && row.code == r.code)
          (centers.map (fun q => mkRDRow q e (pool.filter (fun c => c.date == e)))) = 0 := by
      intro e he hne
      apply List.countP_eq_zero.mpr
      intro row hrow
      rcases List.mem_map.mp hrow with ⟨q, hq, rfl⟩
      simp [mkRDRow, hne]
    rw [sum_map_single_key _ (poolDays pool) d (poolDays_nodup pool) hd hz]
    rw [List.countP_map]
    have hcnt : List.countP
        ((fun row => row.date == d && row.code == r.code) ∘
          (fun q => mkRDRow q d (pool.filter (fun c => c.date == d)))) centers =
        List.countP (fun q => q.code == r.code) centers := by
      apply List.countP_congr
      intro q hq
      simp [mkRDRow]
    rw [hcnt]
    have : List.countP (fun q => q.code == r.code) centers =
        List.count r.code (centers.map (fun q => q.code)) := by
      rw [List.count, List.countP_map]
      rfl
    rw [this]
    exact List.count_eq_one_of_mem hnodup (List.mem_map.mpr ⟨r, hr, rfl⟩)

/-- Witness for C7: day 9 has no candidates and is absent; day 5 has
candidates and yields exactly one row for the single region. -/
theorem empty_day_absent_nonempty_day_unique_witness :
    (∀ row ∈ buildRegionDay [regC1] poolC1, row.date ≠ 9) ∧
    (buildRegionDay [regC1] poolC1).countP
      (fun row => row.date == 5 && row.code == regC1.code) = 1 :=
  ⟨(empty_day_absent_nonempty_day_unique [regC1] poolC1 9).1 (by decide),
    (empty_day_absent_nonempty_day_unique [regC1] poolC1 5).2 (by decide)
      ⟨Cand.mk 1 5 none 0 1, by decide, rfl⟩ regC1 (by decide)⟩

lemma chain_st_const :
    ∀ (rest : List IRec) (r0 : IRec) (sid : Int),
      (r0 :: rest).Chain' (fun x y => stEq x y = true) → r0.st = some sid →
      ∀ r ∈ r0 :: rest, r.st = some sid
  | [], _, _, _, h0, r, hr => by
    rcases List.mem_singleton.mp hr with rfl
    exact h0
  | r1 :: t, r0, sid, hch, h0, r, hr => by
    rw [List.chain'_cons] at hch
    rcases hch with ⟨h01, hch⟩
    have h1 : r1.st = some sid := by
      rcases ht : r1.st with _ | y
      · simp only [stEq, h0, ht] at h01
        exact absurd h01 (by decide)
      · simp only [stEq, h0, ht, beq_iff_eq] at h01
        rw [h01]
    rcases List.mem_cons.mp hr with rfl | hr
    · exact h0
    · exact chain_st_const t r1 sid hch h1 r hr

lemma runsBy_mem_decomp {α : Type} (eq : α → α → Bool) (l : List α)
    (run : List α) (h : run ∈ runsBy eq l) : ∃ pre suf, l = pre ++ run ++ suf := by
  rcases List.append_of_mem h with ⟨rs1, rs2, hsplit⟩
  refine ⟨rs1.flatten, rs2.flatten, ?_⟩
  have hfl := runsBy_flatten eq l
  rw [hsplit] at hfl
  simp only [List.flatten_append, List.flatten_cons] at hfl
  rw [← hfl]
  simp [List.append_assoc]

lemma expand_runs :
    ∀ (rs : List (List IRec)),
      (∀ run ∈ rs, run ≠ []) →
      (∀ run ∈ rs, run.Chain' (fun x y => stEq x y = true)) →
      (∀ run ∈ rs, ∀ r ∈ run, r.st.isSome) →
      (rs.filterMap runToInterval).flatMap
        (fun iv => List.replicate iv.nDays (some iv.stationId : Option Int)) =
      rs.flatten.map (fun r => r.st)
  | [], _, _, _ => rfl
  | run :: rs, hne, hch, hsome => by
    have hrun := hne run (List.mem_cons_self _ _)
    rcases hr : run with _ | ⟨r0, rest⟩
    · exact absurd hr hrun
    · rcases h0 : r0.st with _ | sid
      · have := hsome run (List.mem_cons_self _ _) r0 (by rw [hr]; exact List.mem_cons_self _ _)
        rw [h0] at this
        simp at this
      · have hconst : ∀ r ∈ r0 :: rest, r.st = some sid :=
          chain_st_const rest r0 sid
            (by rw [← hr]; exact hch run (List.mem_cons_self _ _)) h0
        have hiv : runToInterval (r0 :: rest) =
            some (Interval.mk sid r0.date ((r0 :: rest).getLast (by simp)).date
              (((r0 :: rest).map (fun q => q.dist)).sum / (((r0 :: rest).length : ℕ) : ℚ))
              (r0 :: rest).length) := by
          simp only [runToInterval, h0]
        have hexp : List.replicate (r0 :: rest).length (some sid : Option Int) =
            (r0 :: rest).map (fun r => r.st) := by
          have hlen : ((r0 :: rest).map (fun r => r.st)).length = (r0 :: rest).length :=
            List.length_map _ _
          rw [← hlen]
          symm
          apply List.eq_replicate_of_mem
          intro b hb
          rcases List.mem_map.mp hb with ⟨r, hrmem, rfl⟩
          exact hconst r hrmem
        have ih := expand_runs rs
          (fun q hq => hne q (List.mem_cons_of_mem _ hq))
          (fun q hq => hch q (List.mem_cons_of_mem _ hq))
          (fun q hq => hsome q (List.mem_cons_of_mem _ hq))
        simp only [List.filterMap_cons, hiv, List.flatMap_cons, List.flatten_cons,
          List.map_append, ih]
        rw [← hexp]

/-- C2: for one region and one policy, expanding each emitted assignment
interval into nDays copies of its station id and concatenating in date order
reproduces exactly the original chronologically-ordered assigned-station-id
sequence (make_intervals is a lossless run-length compression; station ids in
region_day are never absent, which the hypothesis records). -/
theorem intervals_reconstruct_assignments (recs : List IRec)
    (h : ∀ r ∈ recs, r.st.isSome) :
    (makeIntervalsRegion recs).flatMap
      (fun iv => List.replicate iv.nDays (some iv.stationId : Option Int)) =
    recs.map (fun r => r.st) := by
  rw [makeIntervalsRegion]
  rw [expand_runs (runsBy stEq recs) (runsBy_ne_nil stEq recs)
    (runsBy_chain stEq recs)
    (fun run hrun r hr => h r (by
      have := runsBy_flatten stEq recs
      rw [← this]
      exact List.mem_flatten.mpr ⟨run, hrun, hr⟩))]
  rw [runsBy_flatten]

/-- Witness for C2 at a concrete three-record, two-run sequence. -/
theorem intervals_reconstruct_assignments_witness :
    (∀ r ∈ [IRec.mk (some 1) 0 0, IRec.mk (some 1) 0 1, IRec.mk (some 2) 0 2],
      r.st.isSome) ∧
    (makeIntervalsRegion
        [IRec.mk (some 1) 0 0, IRec.mk (some 1) 0 1, IRec.mk (some 2) 0 2]).flatMap
      (fun iv => List.replicate iv.nDays (some iv.stationId : Option Int)) =
    [IRec.mk (some 1) 0 0, IRec.mk (some 1) 0 1, IRec.mk (some 2) 0 2].map
      (fun r => r.st) :=
  ⟨by decide, intervals_reconstruct_assignments
    [IRec.mk (some 1) 0 0, IRec.mk (some 1) 0 1, IRec.mk (some 2) 0 2] (by decide)⟩

/-- C6: every emitted assignment interval comes from one maximal run of the
input records: its start and end dates are the first and last dates of the
run, its mean distance is the arithmetic mean of the run's per-day distances,
and its day count is the number of records forming the run — which, as the
closed second conjunct shows on a run with dates 0 and 2 and no record on
day 1, can be strictly fewer than the calendar span end - start + 1. -/
theorem interval_stats_match_run (recs : List IRec) :
    (∀ iv ∈ makeIntervalsRegion recs,
      ∃ pre run suf r0 rl, recs = pre ++ run ++ suf ∧
        run.head? = some r0 ∧ run.getLast? = some rl ∧
        (∀ r ∈ run, r.st = some iv.stationId) ∧
        iv.startDate = r0.date ∧ iv.endDate = rl.date ∧
        iv.meanDist = (run.map (fun q => q.dist)).sum / (run.length : ℚ) ∧
        iv.nDays = run.length) ∧
    (∃ iv ∈ makeIntervalsRegion recsGap,
      iv.nDays = 2 ∧ iv.endDate - iv.startDate + 1 = 3) := by
  constructor
  · intro iv hiv
    rcases List.mem_filterMap.mp hiv with ⟨run, hrun, hto⟩
    rcases run with _ | ⟨r0, rest⟩
    · simp [runToInterval] at hto
    · rcases h0 : r0.st with _ | sid
      · simp only [runToInterval, h0] at hto
        exact absurd hto (by simp)
      · simp only [runToInterval, h0] at hto
        rw [Option.some_inj] at hto
        subst hto
        have hconst := chain_st_const rest r0 sid
          (runsBy_chain stEq recs _ hrun) h0
        rcases runsBy_mem_decomp stEq recs _ hrun with ⟨pre, suf, hsplit⟩
        exact ⟨pre, r0 :: rest, suf, r0, (r0 :: rest).getLast (by simp), hsplit,
          rfl, List.getLast?_eq_getLast _ (by simp), hconst, rfl, rfl, rfl, rfl⟩
  · have heq : makeIntervalsRegion recsGap =
        [Interval.mk 7 0 2 ((recsGap.map (fun q => q.dist)).sum / (recsGap.length : ℚ)) 2] :=
      rfl
    refine ⟨_, by rw [heq]; exact List.mem_singleton.mpr rfl, rfl, by decide⟩

/-- Witness for C6 at the concrete single-record input. -/
theorem interval_stats_match_run_witness :
    (ivW ∈ makeIntervalsRegion recsW) ∧
    (∃ pre run suf r0 rl, recsW = pre ++ run ++ suf ∧
      run.head? = some r0 ∧ run.getLast? = some rl ∧
      (∀ r ∈ run, r.st = some ivW.stationId) ∧
      ivW.startDate = r0.date ∧ ivW.endDate = rl.date ∧
      ivW.meanDist = (run.map (fun q => q.dist)).sum / (run.length : ℚ) ∧
      ivW.nDays = run.length) :=
  ⟨by rw [show makeIntervalsRegion recsW = [ivW] from rfl]
      exact List.mem_singleton.mpr rfl,
    (interval_stats_match_run recsW).1 ivW
      (by rw [show makeIntervalsRegion recsW = [ivW] from rfl]
          exact List.mem_singleton.mpr rfl)⟩

lemma countP_eq_one_of_nodup_mem {α : Type} [DecidableEq α] :
    ∀ (l : List α) (a : α), l.Nodup → a ∈ l →
      l.countP (fun x => decide (x = a)) = 1
  | b :: t, a, hnd, ha => by
    rcases List.nodup_cons.mp hnd with ⟨hbt, hnt⟩
    rcases List.mem_cons.mp ha with rfl | ha
    · have hz : t.countP (fun x => decide (x = a)) = 0 := by
        apply List.countP_eq_zero.mpr
        intro x hx
        simp only [decide_eq_true_eq]
        rintro rfl
        exact hbt hx
      simp [List.countP_cons, hz]
    · have hba : b ≠ a := by rintro rfl; exact hbt ha
      have := countP_eq_one_of_nodup_mem t a hnt ha
      simp [List.countP_cons, hba, this]

/-- C10: after segment attachment every (station id, date) pair occurs at
most once in the candidate pool, whatever duplicates the inputs contain: the
final drop_duplicates on (지점, 일시) collapses both multi-segment matches
and duplicated input station-day rows. -/
theorem attach_station_day_unique (sun : List Obs) (meta : List Seg) :
    (attachSegToSun sun meta).Pairwise
      (fun a b => ¬(a.stn = b.stn ∧ a.date = b.date)) := by
  apply List.Pairwise.imp ?_
    (dropDupKeep1_keys_nodup (fun m : ARow => (m.stn, m.date)) [] _)
  intro a b hk
  rintro ⟨h1, h2⟩
  exact hk (by rw [h1, h2])

/-- C8: each emitted monthly row's per-policy value is the sum of the present
measurement values over that (region, month) group's region-day rows — absent
values are skipped by the pandas sum, never defaulted — its day count is the
number of region-day rows of the group, and each (region, month) key that
occurs in region_day is emitted exactly once. -/
theorem monthly_sum_count_unique (ym : Int → Int) (rows : List RDRow) :
    (∀ m ∈ monthlyAgg ym rows,
      m.sumC = ((rows.filter (fun r => r.code == m.code && ym r.date == m.ym)).filterMap
          (fun r => r.sunC)).sum ∧
      m.sumR = ((rows.filter (fun r => r.code == m.code && ym r.date == m.ym)).filterMap
          (fun r => r.sunR)).sum ∧
      m.nDays = (rows.filter (fun r => r.code == m.code && ym r.date == m.ym)).length) ∧
    (∀ code mo, (∃ r ∈ rows, r.code = code ∧ ym r.date = mo) →
      (monthlyAgg ym rows).countP (fun m => m.code == code && m.ym == mo) = 1) := by
  constructor
  · intro m hm
    rcases List.mem_map.mp hm with ⟨k, hk, rfl⟩
    exact ⟨rfl, rfl, rfl⟩
  · intro code mo hex
    have hmem : (code, mo) ∈
        dropDupKeep1 (fun k => k) [] (rows.map (fun r => (r.code, ym r.date))) := by
      rcases hex with ⟨r, hr, h1, h2⟩
      have hcov := dropDupKeep1_keys_covered (fun k => k) []
        (rows.map (fun r => (r.code, ym r.date))) (code, mo) (by simp)
      rcases hcov.mpr ⟨(code, mo),
        List.mem_map.mpr ⟨r, hr, by rw [h1, h2]⟩, rfl⟩ with ⟨x, hx, hxk⟩
      simpa [hxk] using hx
    have hnd : (dropDupKeep1 (fun k => k) []
        (rows.map (fun r => (r.code, ym r.date)))).Nodup :=
      List.Pairwise.imp (fun h => h) (dropDupKeep1_keys_nodup (fun k => k) [] _)
    rw [monthlyAgg, List.countP_map]
    have hcongr : List.countP
        ((fun m => m.code == code && m.ym == mo) ∘ (fun k : Int × Int =>
          MRow.mk k.1 k.2
            (((rows.filter (fun r => r.code == k.1 && ym r.date == k.2)).filterMap
                (fun r => r.sunC)).sum)
            (((rows.filter (fun r => r.code == k.1 && ym r.date == k.2)).filterMap
                (fun r => r.sunR)).sum)
            ((rows.filter (fun r => r.code == k.1 && ym r.date == k.2)).length)))
        (dropDupKeep1 (fun k => k) [] (rows.map (fun r => (r.code, ym r.date)))) =
        List.countP (fun k => decide (k = ((code, mo) : Int × Int)))
          (dropDupKeep1 (fun k => k) [] (rows.map (fun r => (r.code, ym r.date)))) := by
      apply List.countP_congr
      intro k hk
      simp [Prod.ext_iff, Bool.and_comm]
    rw [hcongr]
    exact countP_eq_one_of_nodup_mem _ _ hnd hmem

/-- Witness for C8 at a one-row region-day table with one absent and one
present measurement, under the identity year-month key. -/
theorem monthly_sum_count_unique_witness :
    (MRow.mk 10 5 0 4 1 ∈ monthlyAgg (fun d => d) [RDRow.mk 10 5 1 1 none 1 1 (some 4)] ∧
      (MRow.mk 10 5 0 4 1).sumC =
        (([RDRow.mk 10 5 1 1 none 1 1 (some 4)].filter
            (fun r => r.code == (MRow.mk 10 5 0 4 1).code &&
              (fun d => d) r.date == (MRow.mk 10 5 0 4 1).ym)).filterMap
          (fun r => r.sunC)).sum ∧
      (MRow.mk 10 5 0 4 1).sumR =
        (([RDRow.mk 10 5 1 1 none 1 1 (some 4)].filter
            (fun r => r.code == (MRow.mk 10 5 0 4 1).code &&
              (fun d => d) r.date == (MRow.mk 10 5 0 4 1).ym)).filterMap
          (fun r => r.sunR)).sum ∧
      (MRow.mk 10 5 0 4 1).nDays =
        ([RDRow.mk 10 5 1 1 none 1 1 (some 4)].filter
          (fun r => r.code == (MRow.mk 10 5 0 4 1).code &&
            (fun d => d) r.date == (MRow.mk 10 5 0 4 1).ym)).length) ∧
    (monthlyAgg (fun d => d) [RDRow.mk 10 5 1 1 none 1 1 (some 4)]).countP
      (fun m => m.code == 10 && m.ym == 5) = 1 :=
  ⟨⟨by decide,
    (monthly_sum_count_unique (fun d => d) [RDRow.mk 10 5 1 1 none 1 1 (some 4)]).1
      (MRow.mk 10 5 0 4 1) (by decide)⟩,
   (monthly_sum_count_unique (fun d => d) [RDRow.mk 10 5 1 1 none 1 1 (some 4)]).2
      10 5 ⟨RDRow.mk 10 5 1 1 none 1 1 (some 4), by decide, rfl, rfl⟩⟩

lemma checkCenters_ok (cols : List String) (h : ∀ c ∈ centersNeed, c ∈ cols) :
    checkCenters cols = Except.ok () := by
  have hfl : centersNeed.filter (fun c => !cols.contains c) = [] := by
    apply List.filter_eq_nil_iff.mpr
    intro c hc
    simp [h c hc]
  simp only [checkCenters, hfl, List.mergeSort_nil]

lemma checkCenters_error (cols : List String)
    (h : ∃ c ∈ centersNeed, c ∉ cols) :
    ∃ missing, checkCenters cols = Except.error (LoadError.centersMissing missing) ∧
      ∀ c, c ∈ missing ↔ (c ∈ centersNeed ∧ c ∉ cols) := by
  have hperm := List.mergeSort_perm
    (centersNeed.filter (fun c => !cols.contains c)) (fun a b => a ≤ b)
  have hne : (centersNeed.filter (fun c => !cols.contains c)).mergeSort
      (fun a b => a ≤ b) ≠ [] := by
    intro hnil
    rcases h with ⟨c, hc, hcc⟩
    have : c ∈ centersNeed.filter (fun c => !cols.contains c) :=
      List.mem_filter.mpr ⟨hc, by simp [hcc]⟩
    rw [hnil] at hperm
    rw [hperm.symm.eq_nil] at this
    simp at this
  rcases hms : (centersNeed.filter (fun c => !cols.contains c)).mergeSort
      (fun a b => a ≤ b) with _ | ⟨m, l⟩
  · exact absurd hms hne
  · refine ⟨m :: l, ?_, ?_⟩
    · simp only [checkCenters, hms]
    · intro c
      rw [← hms, List.Perm.mem_iff hperm, List.mem_filter]
      simp

/-- C9: a required column absent from an input table aborts the run with a
fatal error before any assignment computation: a missing centers column makes
the model return the centers error, whose payload enumerates every missing
required field in one pass; a missing sunshine measurement column likewise
aborts with its own error, and in both cases no region-day output exists. -/
theorem missing_columns_abort (wStart wEnd : Int) (centersCols : List String)
    (centers : List Region) (sunCols : List String) (sun : List Obs)
    (metaRows : List MetaRow) (reproject : Int → Int → Int × Int) :
    ((∃ c ∈ centersNeed, c ∉ centersCols) →
      ∃ missing,
        mainModel wStart wEnd centersCols centers sunCols sun metaRows reproject =
          Except.error (LoadError.centersMissing missing) ∧
        ∀ c, c ∈ missing ↔ (c ∈ centersNeed ∧ c ∉ centersCols)) ∧
    ((∀ c ∈ centersNeed, c ∈ centersCols) → sunColName ∉ sunCols →
      sun.filter (fun o => wStart ≤ o.date && o.date ≤ wEnd) ≠ [] →
      mainModel wStart wEnd centersCols centers sunCols sun metaRows reproject =
        Except.error LoadError.sunColMissing) := by
  constructor
  · intro h
    rcases checkCenters_error centersCols h with ⟨missing, herr, hmem⟩
    refine ⟨missing, ?_, hmem⟩
    simp only [mainModel, herr]
  · intro hall hsc hne
    rcases hfil : sun.filter (fun o => wStart ≤ o.date && o.date ≤ wEnd) with _ | ⟨o0, rest⟩
    · exact absurd hfil hne
    · simp only [mainModel, checkCenters_ok centersCols hall, hfil, if_neg hsc]

/-- Witness for C9: a centers table exposing only SIGUNGU_CD aborts with all
five other required fields enumerated; a complete centers table with a
sunshine table lacking the measurement column aborts with the sun error. -/
theorem missing_columns_abort_witness :
    (∃ missing,
      mainModel 0 0 ["SIGUNGU_CD"] [] [] [] [] (fun x y => (x, y)) =
        Except.error (LoadError.centersMissing missing) ∧
      ∀ c, c ∈ missing ↔ (c ∈ centersNeed ∧ c ∉ ["SIGUNGU_CD"])) ∧
    mainModel 0 0 centersNeed [] [] [Obs.mk 1 0 none] [] (fun x y => (x, y)) =
      Except.error LoadError.sunColMissing :=
  ⟨(missing_columns_abort 0 0 ["SIGUNGU_CD"] [] [] [] [] (fun x y => (x, y))).1
      ⟨"resid_area", by decide, by decide⟩,
    (missing_columns_abort 0 0 centersNeed [] [] [Obs.mk 1 0 none] []
        (fun x y => (x, y))).2 (fun c hc => hc) (by decide) (by decide)⟩

lemma segSortLe_trans (a b c : Seg) :
    segSortLe a b = true → segSortLe b c = true → segSortLe a c = true := by
  simp only [segSortLe, lex3, Bool.or_eq_true, Bool.and_eq_true, decide_eq_true_eq]
  omega

lemma segSortLe_total (a b : Seg) : (segSortLe a b || segSortLe b a) = true := by
  simp only [segSortLe, lex3, Bool.or_eq_true, Bool.and_eq_true, decide_eq_true_eq]
  omega

lemma segSortLe_stn (a b : Seg) (h : segSortLe a b = true) : a.stn ≤ b.stn := by
  simp only [segSortLe, lex3, Bool.or_eq_true, Bool.and_eq_true,
    decide_eq_true_eq] at h
  omega

lemma segSortLe_start (a b : Seg) (h : segSortLe a b = true) (hstn : a.stn = b.stn) :
    a.segStart ≤ b.segStart := by
  simp only [segSortLe, lex3, Bool.or_eq_true, Bool.and_eq_true,
    decide_eq_true_eq] at h
  omega

lemma metaSorted_pairwise (rows : List MetaRow) (wStart wEnd : Int) :
    (metaSorted rows wStart wEnd).Pairwise (fun a b => segSortLe a b = true) :=
  List.sorted_mergeSort segSortLe_trans segSortLe_total _

lemma resolve_src :
    ∀ (l : List Seg), ∀ x ∈ resolveOverlaps l,
      ∃ y ∈ l, x.stn = y.stn ∧ x.segStart = y.segStart
  | [r], x, hx => by
    simp only [resolveOverlaps, List.mem_singleton] at hx
    exact ⟨r, List.mem_singleton.mpr rfl, by rw [hx], by rw [hx]⟩
  | r :: s :: t, x, hx => by
    simp only [resolveOverlaps] at hx
    rcases List.mem_cons.mp hx with rfl | hx
    · by_cases hc : r.stn = s.stn ∧ s.segStart ≤ r.segEnd
      · exact ⟨r, List.mem_cons_self _ _, by rw [if_pos hc], by rw [if_pos hc]⟩
      · exact ⟨r, List.mem_cons_self _ _, by rw [if_neg hc], by rw [if_neg hc]⟩
    · rcases resolve_src (s :: t) x hx with ⟨y, hy, h1, h2⟩
      exact ⟨y, List.mem_cons_of_mem _ hy, h1, h2⟩

lemma resolve_bounds (wStart wEnd : Int) :
    ∀ (l : List Seg),
      (∀ y ∈ l, wStart ≤ y.segStart ∧ y.segStart ≤ wEnd ∧ y.segEnd ≤ wEnd) →
      ∀ x ∈ resolveOverlaps l,
        wStart ≤ x.segStart ∧ x.segStart ≤ wEnd ∧ x.segEnd ≤ wEnd
  | [], _, x, hx => by simp [resolveOverlaps] at hx
  | [r], hb, x, hx => by
    simp only [resolveOverlaps, List.mem_singleton] at hx
    rw [hx]
    exact hb r (List.mem_singleton.mpr rfl)
  | r :: s :: t, hb, x, hx => by
    simp only [resolveOverlaps] at hx
    rcases List.mem_cons.mp hx with rfl | hx
    · have hbr := hb r (List.mem_cons_self _ _)
      have hbs := hb s (List.mem_cons_of_mem _ (List.mem_cons_self _ _))
      by_cases hc : r.stn = s.stn ∧ s.segStart ≤ r.segEnd
      · rw [if_pos hc]
        refine ⟨hbr.1, hbr.2.1, ?_⟩
        show s.segStart - 1 ≤ wEnd
        have := hbs.2.1
        omega
      · rw [if_neg hc]
        exact hbr
    · exact resolve_bounds wStart wEnd (s :: t)
        (fun y hy => hb y (List.mem_cons_of_mem _ hy)) x hx

lemma resolve_pairwise :
    ∀ (l : List Seg), l.Pairwise (fun a b => segSortLe a b = true) →
      (resolveOverlaps l).Pairwise (fun a b => a.stn = b.stn → a.segEnd < b.segStart)
  | [], _ => by simp [resolveOverlaps]
  | [r], _ => by simp [resolveOverlaps]
  | r :: s :: t, hpw => by
    rcases List.pairwise_cons.mp hpw with ⟨hr, hpw'⟩
    rcases List.pairwise_cons.mp hpw' with ⟨hs, -⟩
    simp only [resolveOverlaps]
    refine List.Pairwise.cons ?_ (resolve_pairwise (s :: t) hpw')
    intro x hx hstn
    rcases resolve_src (s :: t) x hx with ⟨y, hy, hxy_stn, hxy_start⟩
    have hrs : segSortLe r s = true := hr s (List.mem_cons_self _ _)
    by_cases hc : r.stn = s.stn ∧ s.segStart ≤ r.segEnd
    · rw [if_pos hc] at hstn ⊢
      have hsy : s.segStart ≤ y.segStart := by
        rcases List.mem_cons.mp hy with rfl | hyt
        · exact le_refl _
        · apply segSortLe_start s y (hs y hyt)
          have h1 : r.stn = s.stn := hc.1
          simp only [] at hstn
          omega
      simp only []
      omega
    · rw [if_neg hc] at hstn ⊢
      have h1 : r.stn ≤ s.stn := segSortLe_stn r s hrs
      have h2 : s.stn ≤ y.stn := by
        rcases List.mem_cons.mp hy with rfl | hyt
        · exact le_refl _
        · exact segSortLe_stn s y (hs y hyt)
      have h3 : s.stn = r.stn := by omega
      have h4 : ¬ s.segStart ≤ r.segEnd := fun hle => hc ⟨h3.symm, hle⟩
      have hsy : s.segStart ≤ y.segStart := by
        rcases List.mem_cons.mp hy with rfl | hyt
        · exact le_refl _
        · exact segSortLe_start s y (hs y hyt) (by omega)
      omega

lemma resolveOverlaps_getD (d : Seg) :
    ∀ (l : List Seg) (i : Nat), i + 1 < l.length →
      (resolveOverlaps l).getD i d =
        (if (l.getD i d).stn = (l.getD (i + 1) d).stn ∧
            (l.getD (i + 1) d).segStart ≤ (l.getD i d).segEnd
         then { l.getD i d with segEnd := (l.getD (i + 1) d).segStart - 1 }
         else l.getD i d)
  | [], i, hi => by simp at hi
  | [r], i, hi => by simp at hi
  | r :: s :: t, 0, hi => rfl
  | r :: s :: t, i + 1, hi => by
    have ih := resolveOverlaps_getD d (s :: t) i (by
      simp only [List.length_cons] at hi ⊢
      omega)
    simp only [resolveOverlaps, List.getD_cons_succ]
    exact ih

/-- C3 counterexample: with two segments of one station whose missing start
dates are both filled with the window start, the earlier-sorted segment is
truncated to seg_end = window start - 1 day, which lies outside the analysis
window [0, 100]; the claim's conjunct that after resolution every segment
lies within the analysis window is false. -/
theorem segment_window_containment_counterexample :
    ¬ (∀ g ∈ prepareMeta exMetaC3 0 100, 0 ≤ g.segEnd ∧ g.segEnd ≤ 100) := by
  have hclean : metaClean exMetaC3 0 100 =
      [Seg.mk 1 0 50 0 0, Seg.mk 1 0 80 0 0] := by decide
  have hsorted : metaSorted exMetaC3 0 100 =
      [Seg.mk 1 0 50 0 0, Seg.mk 1 0 80 0 0] := by
    rw [metaSorted, hclean]
    exact List.mergeSort_of_sorted (by decide)
  have hfinal : prepareMeta exMetaC3 0 100 =
      [Seg.mk 1 0 (-1) 0 0, Seg.mk 1 0 80 0 0] := by
    rw [prepareMeta, hsorted]
    decide
  intro h
  have := (h (Seg.mk 1 0 (-1) 0 0) (by rw [hfinal]; exact List.mem_cons_self _ _)).1
  exact absurd this (by decide)

/-- C3 amended: after resolution no two same-station segments share a day,
every segment's seg_start lies in the window and every seg_end is at most the
window end (a truncated segment's seg_end can fall one day before the window
start when its successor starts at the window start, so the lower bound on
seg_end is dropped); and each sorted segment is truncated to exactly the next
same-station segment's seg_start minus one day precisely when its seg_end
reaches that seg_start — the later segment is never modified on account of
its predecessor. -/
theorem segments_disjoint_clipped_truncated (rows : List MetaRow)
    (wStart wEnd : Int) (hw : wStart ≤ wEnd) :
    (prepareMeta rows wStart wEnd).Pairwise (fun a b => a.stn = b.stn →
      ∀ day : Int, ¬(a.segStart ≤ day ∧ day ≤ a.segEnd ∧
        b.segStart ≤ day ∧ day ≤ b.segEnd)) ∧
    (∀ g ∈ prepareMeta rows wStart wEnd,
      wStart ≤ g.segStart ∧ g.segStart ≤ wEnd ∧ g.segEnd ≤ wEnd) ∧
    (∀ i, i + 1 < (metaSorted rows wStart wEnd).length →
      (prepareMeta rows wStart wEnd).getD i dummySeg =
        (if ((metaSorted rows wStart wEnd).getD i dummySeg).stn =
              ((metaSorted rows wStart wEnd).getD (i + 1) dummySeg).stn ∧
            ((metaSorted rows wStart wEnd).getD (i + 1) dummySeg).segStart ≤
              ((metaSorted rows wStart wEnd).getD i dummySeg).segEnd
         then { (metaSorted rows wStart wEnd).getD i dummySeg with
                segEnd := ((metaSorted rows wStart wEnd).getD (i + 1) dummySeg).segStart - 1 }
         else (metaSorted rows wStart wEnd).getD i dummySeg)) := by
  refine ⟨?_, ?_, ?_⟩
  · apply List.Pairwise.imp ?_
      (resolve_pairwise _ (metaSorted_pairwise rows wStart wEnd))
    intro a b hab heq day
    rintro ⟨h1, h2, h3, h4⟩
    have := hab heq
    omega
  · apply resolve_bounds wStart wEnd
    intro y hy
    have hy' : y ∈ metaClean rows wStart wEnd :=
      (List.Perm.mem_iff (List.mergeSort_perm (metaClean rows wStart wEnd)
        segSortLe)).mp hy
    rcases List.mem_filterMap.mp hy' with ⟨p, hp, hif⟩
    by_cases hc : wStart ≤ p.segEnd ∧ p.segStart ≤ wEnd
    · rw [if_pos hc, Option.some_inj] at hif
      subst hif
      refine ⟨le_max_right _ _, ?_, min_le_right _ _⟩
      simp only [max_le_iff]
      exact ⟨hc.2, hw⟩
    · rw [if_neg hc] at hif
      exact absurd hif (by simp)
  · intro i hi
    exact resolveOverlaps_getD dummySeg _ i hi

/-- Witness for the amended C3 at the counterexample metadata. -/
theorem segments_disjoint_clipped_truncated_witness :
    ((0 : Int) ≤ 100) ∧
    ((prepareMeta exMetaC3 0 100).Pairwise (fun a b => a.stn = b.stn →
        ∀ day : Int, ¬(a.segStart ≤ day ∧ day ≤ a.segEnd ∧
          b.segStart ≤ day ∧ day ≤ b.segEnd)) ∧
      (∀ g ∈ prepareMeta exMetaC3 0 100,
        0 ≤ g.segStart ∧ g.segStart ≤ 100 ∧ g.segEnd ≤ 100) ∧
      (∀ i, i + 1 < (metaSorted exMetaC3 0 100).length →
        (prepareMeta exMetaC3 0 100).getD i dummySeg =
          (if ((metaSorted exMetaC3 0 100).getD i dummySeg).stn =
                ((metaSorted exMetaC3 0 100).getD (i + 1) dummySeg).stn ∧
              ((metaSorted exMetaC3 0 100).getD (i + 1) dummySeg).segStart ≤
                ((metaSorted exMetaC3 0 100).getD i dummySeg).segEnd
           then { (metaSorted exMetaC3 0 100).getD i dummySeg with
                  segEnd := ((metaSorted exMetaC3 0 100).getD (i + 1) dummySeg).segStart - 1 }
           else (metaSorted exMetaC3 0 100).getD i dummySeg))) :=
  ⟨by decide, segments_disjoint_clipped_truncated exMetaC3 0 100 (by decide)⟩

lemma attachLe_trans (a b c : ARow) :
    attachLe a b = true → attachLe b c = true → attachLe a c = true :=
  lex3_trans _ _ _

lemma attachLe_total (a b : ARow) : (attachLe a b || attachLe b a) = true :=
  lex3_total _ _

lemma mem_attachPre (sun : List Obs) (meta : List Seg) (m : ARow) :
    m ∈ attachPre sun meta ↔
      ((∃ o ∈ sun, o.stn = m.stn ∧ o.date = m.date ∧ o.sunHr = m.sunHr) ∧
       (∃ s ∈ meta, s.stn = m.stn ∧ s.segStart = m.segStart ∧
         s.segEnd = m.segEnd ∧ s.lat = m.lat ∧ s.lon = m.lon) ∧
       m.segStart ≤ m.date ∧ m.date ≤ m.segEnd) := by
  constructor
  · intro hm
    rcases List.mem_filter.mp hm with ⟨hm, hseg⟩
    rcases List.mem_flatMap.mp hm with ⟨o, ho, hm⟩
    rcases List.mem_map.mp hm with ⟨s, hs, rfl⟩
    rcases List.mem_filter.mp hs with ⟨hs, hstn⟩
    simp only [beq_iff_eq] at hstn
    simp only [Bool.and_eq_true, decide_eq_true_eq] at hseg
    exact ⟨⟨o, ho, rfl, rfl, rfl⟩, ⟨s, hs, hstn, rfl, rfl, rfl, rfl⟩,
      hseg.1, hseg.2⟩
  · rintro ⟨⟨o, ho, ho1, ho2, ho3⟩, ⟨s, hs, hs1, hs2, hs3, hs4, hs5⟩, h1, h2⟩
    apply List.mem_filter.mpr
    refine ⟨?_, by simp [h1, h2]⟩
    apply List.mem_flatMap.mpr
    refine ⟨o, ho, List.mem_map.mpr
      ⟨s, List.mem_filter.mpr ⟨hs, by simp [hs1, ho1]⟩, ?_⟩⟩
    cases m
    simp only [ARow.mk.injEq]
    exact ⟨ho1, ho2, ho3, hs2, hs3, hs4, hs5⟩

lemma attach_sorted_pairwise (sun : List Obs) (meta : List Seg) :
    ((attachPre sun meta).mergeSort attachLe).Pairwise
      (fun a b => ((a.stn, a.date) : Int × Int) = (b.stn, b.date) →
        b.segStart ≤ a.segStart) := by
  apply List.Pairwise.imp ?_
    (List.sorted_mergeSort attachLe_trans attachLe_total (attachPre sun meta))
  intro a b h hk
  rw [Prod.mk.injEq] at hk
  simp only [attachLe, lex3, Bool.or_eq_true, Bool.and_eq_true,
    decide_eq_true_eq] at h
  omega

/-- C5: segment attachment keeps exactly the station-day observations whose
date lies in some segment of their station (joined by station id); the
attached segment contains the date, and among all containing segments of that
station it has the latest seg_start; a station-day pair appears in the output
precisely when it has an observation row and some containing segment, so
observations with no matching segment are dropped. -/
theorem attach_latest_containing_segment (sun : List Obs) (meta : List Seg) :
    (∀ m ∈ attachSegToSun sun meta,
      (∃ o ∈ sun, o.stn = m.stn ∧ o.date = m.date ∧ o.sunHr = m.sunHr) ∧
      (∃ s ∈ meta, s.stn = m.stn ∧ s.segStart = m.segStart ∧
        s.segEnd = m.segEnd ∧ s.lat = m.lat ∧ s.lon = m.lon) ∧
      m.segStart ≤ m.date ∧ m.date ≤ m.segEnd ∧
      (∀ s ∈ meta, s.stn = m.stn → s.segStart ≤ m.date → m.date ≤ s.segEnd →
        s.segStart ≤ m.segStart)) ∧
    (∀ stn date : Int,
      (∃ m ∈ attachSegToSun sun meta, m.stn = stn ∧ m.date = date) ↔
      ((∃ o ∈ sun, o.stn = stn ∧ o.date = date) ∧
       (∃ s ∈ meta, s.stn = stn ∧ s.segStart ≤ date ∧ date ≤ s.segEnd))) := by
  constructor
  · intro m hm
    have hsrtm : m ∈ (attachPre sun meta).mergeSort attachLe :=
      List.Sublist.mem hm (dropDupKeep1_sublist _ _ _)
    have hpre : m ∈ attachPre sun meta :=
      (List.Perm.mem_iff (List.mergeSort_perm _ _)).mp hsrtm
    rcases (mem_attachPre sun meta m).mp hpre with ⟨ho, hsx, h1, h2⟩
    refine ⟨ho, hsx, h1, h2, ?_⟩
    intro s hs hstn hsd hde
    rcases ho with ⟨o, hoin, ho1, ho2, ho3⟩
    have hy : ARow.mk m.stn m.date m.sunHr s.segStart s.segEnd s.lat s.lon ∈
        attachPre sun meta :=
      (mem_attachPre sun meta _).mpr
        ⟨⟨o, hoin, ho1, ho2, ho3⟩, ⟨s, hs, hstn, rfl, rfl, rfl, rfl⟩, hsd, hde⟩
    have hysrt : ARow.mk m.stn m.date m.sunHr s.segStart s.segEnd s.lat s.lon ∈
        (attachPre sun meta).mergeSort attachLe :=
      (List.Perm.mem_iff (List.mergeSort_perm _ _)).mpr hy
    have hm' : m ∈ dropDupKeep1 (fun a : ARow => ((a.stn, a.date) : Int × Int)) []
        ((attachPre sun meta).mergeSort attachLe) := hm
    exact dropDupKeep1_max_of_pairwise (fun a : ARow => ((a.stn, a.date) : Int × Int))
      (fun a => a.segStart) [] _ (attach_sorted_pairwise sun meta) m hm' _ hysrt rfl
  · intro stn date
    constructor
    · rintro ⟨m, hm, rfl, rfl⟩
      have hsrtm : m ∈ (attachPre sun meta).mergeSort attachLe :=
        List.Sublist.mem hm (dropDupKeep1_sublist _ _ _)
      have hpre : m ∈ attachPre sun meta :=
        (List.Perm.mem_iff (List.mergeSort_perm _ _)).mp hsrtm
      rcases (mem_attachPre sun meta m).mp hpre with
        ⟨⟨o, ho, ho1, ho2, -⟩, ⟨s, hs, hs1, hs2, hs3, -, -⟩, h1, h2⟩
      exact ⟨⟨o, ho, ho1, ho2⟩, ⟨s, hs, hs1, by omega, by omega⟩⟩
    · rintro ⟨⟨o, ho, ho1, ho2⟩, ⟨s, hs, hs1, hs2, hs3⟩⟩
      have hy : ARow.mk stn date o.sunHr s.segStart s.segEnd s.lat s.lon ∈
          attachPre sun meta :=
        (mem_attachPre sun meta _).mpr
          ⟨⟨o, ho, ho1, ho2, rfl⟩, ⟨s, hs, hs1, rfl, rfl, rfl, rfl⟩, hs2, hs3⟩
      have hysrt : ARow.mk stn date o.sunHr s.segStart s.segEnd s.lat s.lon ∈
          (attachPre sun meta).mergeSort attachLe :=
        (List.Perm.mem_iff (List.mergeSort_perm _ _)).mpr hy
      have hcov := dropDupKeep1_keys_covered (fun m : ARow => (m.stn, m.date)) []
        ((attachPre sun meta).mergeSort attachLe) (stn, date) (by simp)
      rcases hcov.mpr ⟨_, hysrt, rfl⟩ with ⟨x, hx, hxk⟩
      rw [Prod.mk.injEq] at hxk
      exact ⟨x, hx, hxk.1, hxk.2⟩

/-- Witness for C5 at one observation and two overlapping segments of its
station: the kept row carries the later-starting segment. -/
theorem attach_latest_containing_segment_witness :
    (arowW5 ∈ attachSegToSun sunW5 metaW5) ∧
    ((∃ o ∈ sunW5, o.stn = arowW5.stn ∧ o.date = arowW5.date ∧
        o.sunHr = arowW5.sunHr) ∧
      (∃ s ∈ metaW5, s.stn = arowW5.stn ∧ s.segStart = arowW5.segStart ∧
        s.segEnd = arowW5.segEnd ∧ s.lat = arowW5.lat ∧ s.lon = arowW5.lon) ∧
      arowW5.segStart ≤ arowW5.date ∧ arowW5.date ≤ arowW5.segEnd ∧
      (∀ s ∈ metaW5, s.stn = arowW5.stn → s.segStart ≤ arowW5.date →
        arowW5.date ≤ s.segEnd → s.segStart ≤ arowW5.segStart)) := by
  have hpre : attachPre sunW5 metaW5 = [arowW5, arowW5b] := by decide
  have hsrt : (attachPre sunW5 metaW5).mergeSort attachLe = [arowW5, arowW5b] := by
    rw [hpre]
    exact List.mergeSort_of_sorted (by decide)
  have hmem : arowW5 ∈ attachSegToSun sunW5 metaW5 := by
    show arowW5 ∈ dropDupKeep1 (fun m => (m.stn, m.date)) []
      ((attachPre sunW5 metaW5).mergeSort attachLe)
    rw [hsrt]
    decide
  exact ⟨hmem, (attach_latest_containing_segment sunW5 metaW5).1 arowW5 hmem⟩

end SunAssign
